import Mathlib

/-!
Verification of the graph exploration / neighborhood-sampling engine
("spiky-ball" family: snowball, forest-fire, fireball, coreball) described
by the specification of the mizvol/GraphMining-TheWebConf2021 repository,
together with the label-spreading routine of the Wikipedia notebook.

The notebooks invoke the sampler through the external libraries
littleballoffur and spikexplore; the sampling core itself is not part of
the repository sources, so the engine below is modelled from the
specification (section 2 to section 4): Graph Accessor, Frontier Manager,
Edge Selector, Hop Controller and Sampled-Graph Builder.  All randomness
is drawn from a seeded deterministic generator threaded through the run,
as the specification requires.  Machine floats of the source are modelled
as rationals; node identifiers as naturals.
-/

namespace SpikyBall

/-- Modelled from the spec: opaque node identifier (spec section 3), taken
to be a natural number. -/
abbrev NodeId := Nat

/-- Modelled from the spec: an edge is an ordered pair of node ids plus a
numeric weight (spec section 3). -/
structure Edge where
  src : NodeId
  tgt : NodeId
  weight : ℚ
deriving DecidableEq, Repr

/-- Modelled from the spec: the four sampling strategies of the Edge
Selector (spec section 4.1). -/
inductive SamplingMode where
  | snowball
  | forestFire
  | fireball
  | coreball
deriving DecidableEq, Repr

/-- Modelled from the spec: immutable configuration resolved before a run
starts (spec sections 3 and 6).  The degree-bias exponent distrib_coeff is
modelled as a natural exponent and max_nodes_per_hop as an optional cap
(none meaning unbounded).  max_retries bounds the retry attempts of
section 7. -/
structure SamplingConfig where
  target_node_count : Nat
  max_hop_depth : Nat
  sampling_probability : ℚ
  max_nodes_per_hop : Option Nat
  mode : SamplingMode
  distrib_coeff : Nat
  random_seed : Nat
  max_retries : Nat
deriving DecidableEq, Repr

/-- Modelled from the spec: post-hoc filter configuration of the
Sampled-Graph Builder (spec section 4.4). -/
structure GraphConfig where
  min_weight : ℚ
  min_degree : Nat
  drop_isolates : Bool
deriving DecidableEq, Repr

/-- Modelled from the spec: the Graph Accessor capability (spec sections 2
and 6): neighbor listing with weights and degree lookup.  A query takes an
attempt index so that transient failures (spec section 7) are expressible:
the result none means the attempt failed. -/
structure GraphAccessor where
  query : Nat → NodeId → Option (List (NodeId × ℚ))
  degree : NodeId → Nat

/-- Modelled from the spec: aggregate state of one exploration run (spec
section 3): visited nodes in admission order, accumulated edges, current
hop index, and the skipped-node diagnostic counter. -/
structure SampleState where
  visited : List NodeId
  edges : List Edge
  hop : Nat
  skipped : Nat
deriving DecidableEq, Repr

/-- Modelled from the spec: the state threaded through the hop loop: the
SampleState, the current frontier, and the pseudo-random generator
state. -/
structure RunState where
  state : SampleState
  frontier : List NodeId
  seed : Nat
deriving DecidableEq, Repr

/-- Modelled from the spec: reason the run stopped (spec section 4.3),
exposed to the caller for diagnostics. -/
inductive StopReason where
  | reachedTarget
  | exhausted
  | depthLimit
deriving DecidableEq, Repr

/-- Modelled from the spec: run diagnostics (spec section 6): final
visited size, edge count, stop reason and skipped-node count. -/
structure Diagnostics where
  visitedCount : Nat
  edgeCount : Nat
  reason : StopReason
  skipped : Nat
deriving DecidableEq, Repr

/-- Modelled from the spec: the finalized output graph (spec section
4.4). -/
structure OutGraph where
  nodes : List NodeId
  edges : List Edge
deriving DecidableEq, Repr

/-- Modelled from the spec: one step of the seeded pseudo-random
generator, a linear congruential generator modulo 2 to the 31. -/
def randStep (s : Nat) : Nat :=
  (s * 1103515245 + 12345) % 2147483648

/-- Modelled from the spec: the fraction in the interval from 0 to 1
represented by the current generator state. -/
def randFrac (s : Nat) : ℚ :=
  ((s % 2147483648 : Nat) : ℚ) / 2147483648

/-- Modelled from the spec: bounded-retry neighbor query (spec section 7):
attempts 0 up to max_retries are tried in order; the first successful
answer wins; none means all attempts failed. -/
def retryNeighbors (cfg : SamplingConfig) (acc : GraphAccessor) (u : NodeId) :
    Option (List (NodeId × ℚ)) :=
  go (cfg.max_retries + 1) 0
where
  go : Nat → Nat → Option (List (NodeId × ℚ))
    | 0, _ => none
    | n + 1, i =>
      match acc.query i u with
      | some r => some r
      | none => go n (i + 1)

/-- Modelled from the spec: score of a candidate edge under the current
mode (spec section 4.1): fireball scales the weight by the target degree
raised to distrib_coeff, coreball by the product of source and target
degree raised to distrib_coeff; the other modes use the bare weight. -/
def edgeScore (cfg : SamplingConfig) (acc : GraphAccessor) (u : NodeId)
    (p : NodeId × ℚ) : ℚ :=
  match cfg.mode with
  | SamplingMode.fireball => p.2 * ((acc.degree p.1 : ℚ)) ^ cfg.distrib_coeff
  | SamplingMode.coreball =>
      p.2 * (((acc.degree u : ℚ)) * ((acc.degree p.1 : ℚ))) ^ cfg.distrib_coeff
  | _ => p.2

/-- Modelled from the spec: index of the weighted pick: the least index
whose cumulative weight strictly exceeds the target value. -/
def pickIndex : List ℚ → ℚ → Nat
  | [], _ => 0
  | w :: rest, t => if t < w then 0 else 1 + pickIndex rest (t - w)

/-- Modelled from the spec: number of edges retained by the fireball and
coreball selectors: the sampling probability applied per candidate,
rounded up (spec section 4.1). -/
def numToSelect (cfg : SamplingConfig) (n : Nat) : Nat :=
  (cfg.sampling_probability * (n : ℚ)).ceil.toNat

/-- Modelled from the spec: weighted random sampling without replacement
(spec section 4.1): each draw picks one remaining candidate with
probability proportional to its score, removes it, and advances the
generator. -/
def weightedSample (score : NodeId × ℚ → ℚ) :
    Nat → List (NodeId × ℚ) → Nat → List (NodeId × ℚ) × Nat
  | 0, _, s => ([], s)
  | _ + 1, [], s => ([], s)
  | k + 1, items, s =>
      let ws := items.map score
      let tot := ws.sum
      let i0 := if tot ≤ 0 then 0 else pickIndex ws (randFrac s * tot)
      let i := min i0 (items.length - 1)
      match items[i]? with
      | none => ([], s)
      | some it =>
          let next := weightedSample score k (items.eraseIdx i) (randStep s)
          (it :: next.1, next.2)

/-- Modelled from the spec: forest-fire retention: each edge is
independently kept with the burning probability (spec section 4.1),
consuming one generator step per candidate. -/
def forestFilter (cfg : SamplingConfig) (u : NodeId) :
    List (NodeId × ℚ) → Nat → List Edge × Nat
  | [], s => ([], s)
  | p :: rest, s =>
      let next := forestFilter cfg u rest (randStep s)
      if randFrac s < cfg.sampling_probability then
        (⟨u, p.1, p.2⟩ :: next.1, next.2)
      else
        next

/-- Modelled from the spec: the Edge Selector (spec section 4.1): given a
frontier node and its outgoing edges, choose the subset of edges to follow
this hop, threading the generator state. -/
def selectEdges (cfg : SamplingConfig) (acc : GraphAccessor) (u : NodeId)
    (nbrs : List (NodeId × ℚ)) (s : Nat) : List Edge × Nat :=
  match cfg.mode with
  | SamplingMode.snowball => (nbrs.map (fun p => ⟨u, p.1, p.2⟩), s)
  | SamplingMode.forestFire => forestFilter cfg u nbrs s
  | _ =>
      let picked := weightedSample (edgeScore cfg acc u) (numToSelect cfg nbrs.length) nbrs s
      (picked.1.map (fun p => ⟨u, p.1, p.2⟩), picked.2)

/-- Modelled from the spec: expansion of one frontier node (spec section
4.3): a node whose neighbor query fails after all retries is treated as
having zero outgoing edges and flagged as skipped. -/
def expandNode (cfg : SamplingConfig) (acc : GraphAccessor) (u : NodeId)
    (s : Nat) : List Edge × Nat × Nat :=
  match retryNeighbors cfg acc u with
  | none => ([], 1, s)
  | some nbrs =>
      let sel := selectEdges cfg acc u nbrs s
      (sel.1, 0, sel.2)

/-- Modelled from the spec: expansion of the whole frontier in order,
collecting selected edges, the number of skipped nodes, and the final
generator state. -/
def expandFrontier (cfg : SamplingConfig) (acc : GraphAccessor) :
    List NodeId → Nat → List Edge × Nat × Nat
  | [], s => ([], 0, s)
  | u :: rest, s =>
      let one := expandNode cfg acc u s
      let more := expandFrontier cfg acc rest one.2.2
      (one.1 ++ more.1, one.2.1 + more.2.1, more.2.2)

/-- Modelled from the spec: seeded random subset of a given size, drawn
without replacement by repeated uniform index picks (spec section 4.2). -/
def seededTake : Nat → List NodeId → Nat → List NodeId × Nat
  | 0, _, s => ([], s)
  | _ + 1, [], s => ([], s)
  | k + 1, l, s =>
      let i := s % l.length
      match l[i]? with
      | none => ([], s)
      | some x =>
          let next := seededTake k (l.eraseIdx i) (randStep s)
          (x :: next.1, next.2)

/-- Modelled from the spec: the per-hop cap of the Frontier Manager (spec
section 4.2): when a cap is configured and the candidate count exceeds it,
a deterministic seeded random subset of that size is kept. -/
def applyCap (cfg : SamplingConfig) (l : List NodeId) (s : Nat) :
    List NodeId × Nat :=
  match cfg.max_nodes_per_hop with
  | none => (l, s)
  | some k => if l.length ≤ k then (l, s) else seededTake k l s

/-- Modelled from the spec: the edges selected while expanding the
current frontier. -/
def selectedOf (cfg : SamplingConfig) (acc : GraphAccessor) (rs : RunState) :
    List Edge :=
  (expandFrontier cfg acc rs.frontier rs.seed).1

/-- Modelled from the spec: the number of frontier nodes skipped because
their neighbor query failed on every retry. -/
def skipsOf (cfg : SamplingConfig) (acc : GraphAccessor) (rs : RunState) :
    Nat :=
  (expandFrontier cfg acc rs.frontier rs.seed).2.1

/-- Modelled from the spec: the generator state after expanding the
current frontier. -/
def seedAfterExpand (cfg : SamplingConfig) (acc : GraphAccessor)
    (rs : RunState) : Nat :=
  (expandFrontier cfg acc rs.frontier rs.seed).2.2

/-- Modelled from the spec: the Frontier Manager filter (spec section
4.2): targets of the selected edges with the already-visited ones
excluded, deduplicated. -/
def freshOf (cfg : SamplingConfig) (acc : GraphAccessor) (rs : RunState) :
    List NodeId :=
  (((selectedOf cfg acc rs).map Edge.tgt).filter
    (fun t => !(rs.state.visited.contains t))).dedup

/-- Modelled from the spec: the fresh candidates after the per-hop cap. -/
def cappedOf (cfg : SamplingConfig) (acc : GraphAccessor) (rs : RunState) :
    List NodeId × Nat :=
  applyCap cfg (freshOf cfg acc rs) (seedAfterExpand cfg acc rs)

/-- Modelled from the spec: the candidates admitted into the VisitedSet
this hop, the capped fresh candidates truncated to the room left under
the target node count. -/
def admittedOf (cfg : SamplingConfig) (acc : GraphAccessor) (rs : RunState) :
    List NodeId :=
  (cappedOf cfg acc rs).1.take
    (cfg.target_node_count - rs.state.visited.length)

/-- Modelled from the spec: one Expanding step of the Hop Controller (spec
section 4.3): expand every frontier node through the Edge Selector, let
the Frontier Manager filter out already-visited targets, deduplicate,
apply the per-hop cap and the target-size cap, admit the survivors into
the VisitedSet, record the accepted edges whose target was admitted or
already visited, and advance the hop index. -/
def hopStep (cfg : SamplingConfig) (acc : GraphAccessor) (rs : RunState) :
    RunState :=
  let admitted := admittedOf cfg acc rs
  let visited2 := rs.state.visited ++ admitted
  { state :=
      { visited := visited2
        edges := rs.state.edges ++
          (selectedOf cfg acc rs).filter (fun e => visited2.contains e.tgt)
        hop := rs.state.hop + 1
        skipped := rs.state.skipped + skipsOf cfg acc rs }
    frontier := admitted
    seed := (cappedOf cfg acc rs).2 }

/-- Modelled from the spec: the Init state of the Hop Controller (spec
section 4.3): VisitedSet and Frontier seeded with the caller-supplied
initial nodes, hop index 0, generator seeded from the configuration. -/
def initState (cfg : SamplingConfig) (seeds : List NodeId) : RunState :=
  { state := { visited := seeds.dedup, edges := [], hop := 0, skipped := 0 }
    frontier := seeds.dedup
    seed := cfg.random_seed }

/-- Modelled from the spec: the stopping test of the Hop Controller (spec
section 4.3): Done when the VisitedSet reached the target node count, the
frontier is empty, or the hop index reached the maximum depth. -/
def stopCheck (cfg : SamplingConfig) (rs : RunState) : Option StopReason :=
  if cfg.target_node_count ≤ rs.state.visited.length then
    some StopReason.reachedTarget
  else if rs.frontier = [] then some StopReason.exhausted
  else if cfg.max_hop_depth ≤ rs.state.hop then some StopReason.depthLimit
  else none

/-- Modelled from the spec: the hop loop of the Hop Controller, written
with explicit fuel; the run itself supplies enough fuel for the depth
bound to fire before the fuel does. -/
def runLoop (cfg : SamplingConfig) (acc : GraphAccessor) :
    Nat → RunState → RunState × StopReason
  | 0, rs => (rs, StopReason.depthLimit)
  | fuel + 1, rs =>
      match stopCheck cfg rs with
      | some r => (rs, r)
      | none => runLoop cfg acc fuel (hopStep cfg acc rs)

/-- Modelled from the spec: the hop trajectory of a run: the state after n
applications of the hop step starting from the initial state. -/
def explorationState (cfg : SamplingConfig) (acc : GraphAccessor)
    (seeds : List NodeId) : Nat → RunState
  | 0 => initState cfg seeds
  | n + 1 => hopStep cfg acc (explorationState cfg acc seeds n)

/-- Modelled from the spec: degree of a node inside an edge list, counting
incident edges in either direction. -/
def degreeIn (edges : List Edge) (v : NodeId) : Nat :=
  (edges.filter (fun e => e.src = v || e.tgt = v)).length

/-- Modelled from the spec: one pass of the min-degree pruning of the
Sampled-Graph Builder (spec section 4.4): drop the nodes whose current
degree is below the threshold together with their incident edges. -/
def pruneStep (k : Nat) (g : OutGraph) : OutGraph :=
  let survivors := g.nodes.filter (fun v => k ≤ degreeIn g.edges v)
  { nodes := survivors
    edges := g.edges.filter (fun e => survivors.contains e.src && survivors.contains e.tgt) }

/-- Modelled from the spec: iterated min-degree pruning, recomputing
degrees after each removal pass until a fixed point (spec section 4.4),
with fuel bounding the number of passes. -/
def pruneIter (k : Nat) : Nat → OutGraph → OutGraph
  | 0, g => g
  | fuel + 1, g =>
      let g2 := pruneStep k g
      if g2.nodes.length = g.nodes.length then g
      else pruneIter k fuel g2

/-- Modelled from the spec: the transitive min-degree pruning: iterate
removal passes to a fixed point; one pass per node suffices since every
effective pass removes at least one node. -/
def minDegreePrune (k : Nat) (g : OutGraph) : OutGraph :=
  pruneIter k g.nodes.length g

/-- Modelled from the spec: the isolate-removal pass of the Sampled-Graph
Builder (spec section 4.4). -/
def dropIsolates (g : OutGraph) : OutGraph :=
  { nodes := g.nodes.filter (fun v => 1 ≤ degreeIn g.edges v)
    edges := g.edges }

/-- Modelled from the spec: the Sampled-Graph Builder (spec section 4.4):
build the output graph from the accumulated sample, apply the min-weight
filter, the transitive min-degree pruning, and optionally remove
isolates. -/
def finalize (st : SampleState) (gcfg : GraphConfig) : OutGraph :=
  let g0 : OutGraph :=
    { nodes := st.visited
      edges := st.edges.filter (fun e => gcfg.min_weight ≤ e.weight) }
  let g1 := minDegreePrune gcfg.min_degree g0
  if gcfg.drop_isolates then dropIsolates g1 else g1

/-- Modelled from the spec: one full exploration run (spec sections 2, 3
and 6): Init, hop loop, finalize, diagnostics. -/
def runExplore (cfg : SamplingConfig) (gcfg : GraphConfig)
    (acc : GraphAccessor) (seeds : List NodeId) : OutGraph × Diagnostics :=
  let res := runLoop cfg acc (cfg.max_hop_depth + 1) (initState cfg seeds)
  let g := finalize res.1.state gcfg
  (g, { visitedCount := res.1.state.visited.length
        edgeCount := res.1.state.edges.length
        reason := res.2
        skipped := res.1.state.skipped })

/-- Modelled from the spec: targets reachable through the accessor from a
node, with a failed node treated as having zero outgoing edges. -/
def nbrTargets (cfg : SamplingConfig) (acc : GraphAccessor) (u : NodeId) :
    List NodeId :=
  ((retryNeighbors cfg acc u).getD []).map Prod.fst

/-- Modelled from the spec: one layer of breadth-first reachability: the
given nodes together with all their neighbor targets, deduplicated. -/
def reachStep (cfg : SamplingConfig) (acc : GraphAccessor)
    (l : List NodeId) : List NodeId :=
  (l ++ l.flatMap (nbrTargets cfg acc)).dedup

/-- Modelled from the spec: the set of nodes reachable from the seeds
within n hops, as a deduplicated list. -/
def reachWithin (cfg : SamplingConfig) (acc : GraphAccessor)
    (seeds : List NodeId) : Nat → List NodeId
  | 0 => seeds.dedup
  | n + 1 => reachStep cfg acc (reachWithin cfg acc seeds n)

/-- Modelled from the spec: mean original-graph degree of a list of nodes,
used by the degree-bias property of spec section 8. -/
def meanOrigDegree (acc : GraphAccessor) (l : List NodeId) : ℚ :=
  (l.map (fun v => ((acc.degree v : ℚ)))).sum / (l.length : ℚ)

end SpikyBall

namespace LabelSpreading

/-- Matrix with n rows and m columns over the rationals, as a function of
the indices.  The source works on numpy float arrays; entries are
modelled as rationals. -/
def Mat (n m : Nat) := Fin n → Fin m → ℚ

/-- One update of the labelSpreading loop of 06_exploring_wikipedia:
Y := alpha * S Y + (1 - alpha) * labels, where S is the matrix
I - L for the normalized Laplacian L.  The source computes S from the
graph through the graph library; its entries are irrational reals in
general, so S is taken here as an input matrix. -/
def lsStep {n m : Nat} (S : Mat n n) (labels : Mat n m) (alpha : ℚ)
    (Y : Mat n m) : Mat n m :=
  fun i j => alpha * (Finset.univ.sum fun k => S i k * Y k j) + (1 - alpha) * labels i j

/-- Squared Frobenius norm of the difference of two matrices; the source
compares the norm against tol, equivalently the squared norm against tol
squared. -/
def sqDist {n m : Nat} (A B : Mat n m) : ℚ :=
  Finset.univ.sum fun i => Finset.univ.sum fun j => (A i j - B i j) ^ 2

/-- Iteration loop of labelSpreading: perform the update, stop early when
the distance between consecutive iterates falls below the tolerance,
otherwise continue with the remaining fuel; the current iterate is
returned in every case. -/
def lsLoop {n m : Nat} (S : Mat n n) (labels : Mat n m) (alpha : ℚ)
    (tol : ℚ) : Nat → Mat n m → Mat n m
  | 0, Y => Y
  | fuel + 1, Y =>
      let Y2 := lsStep S labels alpha Y
      if sqDist Y2 Y < tol ^ 2 then Y2
      else lsLoop S labels alpha tol fuel Y2

/-- Embedding of labelSpreading from 06_exploring_wikipedia: max_iter is
1000, the initial iterate is the zero matrix, and the final iterate is
returned whether or not the tolerance was ever met. -/
def labelSpreading {n m : Nat} (S : Mat n n) (labels : Mat n m)
    (alpha : ℚ) (tol : ℚ) : Mat n m :=
  lsLoop S labels alpha tol 1000 (fun _ _ => 0)

end LabelSpreading

namespace SpikyBall

/-- Concrete accessor over the chain graph 0 - 1 - 2 - 3, used to
instantiate proved properties on a closed run. -/
def accChainW : GraphAccessor :=
  { query := fun _ v =>
      if v = 0 then some [(1, 1)] else if v = 1 then some [(2, 1)]
      else if v = 2 then some [(3, 1)] else some []
    degree := fun _ => 1 }

/-- Concrete snowball configuration used to instantiate proved properties
on a closed run. -/
def cfgSnowW : SamplingConfig :=
  { target_node_count := 10
    max_hop_depth := 5
    sampling_probability := 1
    max_nodes_per_hop := none
    mode := SamplingMode.snowball
    distrib_coeff := 1
    random_seed := 0
    max_retries := 0 }

theorem hopStep_hop (cfg : SamplingConfig) (acc : GraphAccessor)
    (rs : RunState) : (hopStep cfg acc rs).state.hop = rs.state.hop + 1 := rfl

theorem hopStep_visited (cfg : SamplingConfig) (acc : GraphAccessor)
    (rs : RunState) :
    (hopStep cfg acc rs).state.visited =
      rs.state.visited ++ admittedOf cfg acc rs := rfl

theorem hopStep_frontier (cfg : SamplingConfig) (acc : GraphAccessor)
    (rs : RunState) :
    (hopStep cfg acc rs).frontier = admittedOf cfg acc rs := rfl

theorem mem_of_seededTake {x : NodeId} :
    ∀ (k : Nat) (l : List NodeId) (s : Nat),
      x ∈ (seededTake k l s).1 → x ∈ l
  | 0, _, _ => by simp [seededTake]
  | _ + 1, [], _ => by simp [seededTake]
  | k + 1, a :: l, s => by
    simp only [seededTake]
    cases hg : (a :: l)[s % (a :: l).length]? with
    | none => simp
    | some y =>
      intro hx
      rcases List.mem_cons.1 hx with h | h
      · exact h ▸ List.getElem?_mem hg
      · exact List.eraseIdx_subset _ _ (mem_of_seededTake k _ _ h)

theorem mem_of_applyCap {cfg : SamplingConfig} {l : List NodeId} {s : Nat}
    {x : NodeId} (hx : x ∈ (applyCap cfg l s).1) : x ∈ l := by
  rcases hcap : cfg.max_nodes_per_hop with _ | k
  · simpa [applyCap, hcap] using hx
  · rw [applyCap, hcap] at hx
    simp only at hx
    split at hx
    · exact hx
    · exact mem_of_seededTake _ _ _ hx

theorem mem_admittedOf_fresh {cfg : SamplingConfig} {acc : GraphAccessor}
    {rs : RunState} {x : NodeId} (hx : x ∈ admittedOf cfg acc rs) :
    x ∈ freshOf cfg acc rs :=
  mem_of_applyCap (List.take_subset _ _ hx)

theorem mem_freshOf_not_visited {cfg : SamplingConfig} {acc : GraphAccessor}
    {rs : RunState} {x : NodeId} (hx : x ∈ freshOf cfg acc rs) :
    x ∉ rs.state.visited := by
  unfold freshOf at hx
  rw [List.mem_dedup] at hx
  have := List.of_mem_filter hx
  simpa using this

theorem length_hopStep_visited_le {cfg : SamplingConfig}
    {acc : GraphAccessor} {rs : RunState}
    (h : rs.state.visited.length ≤ cfg.target_node_count) :
    (hopStep cfg acc rs).state.visited.length ≤ cfg.target_node_count := by
  rw [hopStep_visited, List.length_append]
  have h1 : (admittedOf cfg acc rs).length ≤
      cfg.target_node_count - rs.state.visited.length :=
    List.length_take_le _ _
  omega

theorem mem_visited_hopStep {cfg : SamplingConfig} {acc : GraphAccessor}
    {rs : RunState} {x : NodeId} (hx : x ∈ rs.state.visited) :
    x ∈ (hopStep cfg acc rs).state.visited := by
  rw [hopStep_visited]
  exact List.mem_append_left _ hx

theorem mem_visited_mono {cfg : SamplingConfig} {acc : GraphAccessor}
    {seeds : List NodeId} {x : NodeId} {h n : Nat} (hn : h ≤ n)
    (hx : x ∈ (explorationState cfg acc seeds h).state.visited) :
    x ∈ (explorationState cfg acc seeds n).state.visited := by
  induction n, hn using Nat.le_induction with
  | base => exact hx
  | succ n _ ih => exact mem_visited_hopStep ih

/-- Claim C1: every exploration run terminates, and the hop loop stops because
the VisitedSet reached the target node count, or the frontier became
empty, or the hop index reached the configured maximum depth. -/
theorem spec_c1_run_stops_for_a_listed_reason (cfg : SamplingConfig)
    (acc : GraphAccessor) (seeds : List NodeId) :
    cfg.target_node_count ≤
        (runLoop cfg acc (cfg.max_hop_depth + 1)
          (initState cfg seeds)).1.state.visited.length ∨
      (runLoop cfg acc (cfg.max_hop_depth + 1)
          (initState cfg seeds)).1.frontier = [] ∨
      cfg.max_hop_depth ≤
        (runLoop cfg acc (cfg.max_hop_depth + 1)
          (initState cfg seeds)).1.state.hop := by
  have main : ∀ (fuel : Nat) (rs : RunState),
      cfg.max_hop_depth + 1 ≤ rs.state.hop + fuel →
      cfg.target_node_count ≤
          (runLoop cfg acc fuel rs).1.state.visited.length ∨
        (runLoop cfg acc fuel rs).1.frontier = [] ∨
        cfg.max_hop_depth ≤ (runLoop cfg acc fuel rs).1.state.hop := by
    intro fuel
    induction fuel with
    | zero =>
      intro rs h
      right; right
      show cfg.max_hop_depth ≤ rs.state.hop
      omega
    | succ fuel ih =>
      intro rs h
      rw [runLoop]
      cases hst : stopCheck cfg rs with
      | some r =>
        simp only
        unfold stopCheck at hst
        split_ifs at hst with h1 h2 h3
        · exact Or.inl h1
        · exact Or.inr (Or.inl h2)
        · exact Or.inr (Or.inr h3)
      | none =>
        simp only
        exact ih (hopStep cfg acc rs) (by rw [hopStep_hop]; omega)
  exact main (cfg.max_hop_depth + 1) (initState cfg seeds) (by simp [initState])

/-- Counterexample to claim C2 as frozen: a run seeded with more
distinct nodes than the target node count has a VisitedSet larger than
the target already at hop 0, so the cap does not hold for every run. -/
theorem spec_c2_counterexample :
    ¬ ((explorationState cfgSnowW accChainW
          [0, 1, 2, 3, 4, 5, 6, 7, 8, 9, 10] 0).state.visited.length ≤
        cfgSnowW.target_node_count) := by decide

/-- Claim C2 as amended: along the hop trajectory of a run whose
deduplicated seed set is within the target node count, the size of the
VisitedSet never decreases from one hop to the next and never exceeds
the target node count; over-seeded runs violate the cap at hop 0. -/
theorem spec_c2_visited_monotone_and_capped (cfg : SamplingConfig)
    (acc : GraphAccessor) (seeds : List NodeId)
    (hseeds : seeds.dedup.length ≤ cfg.target_node_count) (n : Nat) :
    (explorationState cfg acc seeds n).state.visited.length ≤
        (explorationState cfg acc seeds (n + 1)).state.visited.length ∧
      (explorationState cfg acc seeds n).state.visited.length ≤
        cfg.target_node_count := by
  constructor
  · show _ ≤ (hopStep cfg acc _).state.visited.length
    rw [hopStep_visited, List.length_append]
    omega
  · induction n with
    | zero => simpa [explorationState, initState] using hseeds
    | succ n ih => exact length_hopStep_visited_le ih

/-- Witness for C2. -/
theorem spec_c2_witness :
    [0].dedup.length ≤ cfgSnowW.target_node_count ∧
      (explorationState cfgSnowW accChainW [0] 1).state.visited.length ≤
          (explorationState cfgSnowW accChainW [0] 2).state.visited.length ∧
        (explorationState cfgSnowW accChainW [0] 1).state.visited.length ≤
          cfgSnowW.target_node_count :=
  ⟨by decide,
    spec_c2_visited_monotone_and_capped cfgSnowW accChainW [0] (by decide) 1⟩

/-- Claim C3: a node in the VisitedSet before hop h is never a member of the
frontier produced at any later hop; no node is expanded twice in one
run. -/
theorem spec_c3_no_reexpansion (cfg : SamplingConfig) (acc : GraphAccessor)
    (seeds : List NodeId) (h n : Nat) (hn : h ≤ n) (x : NodeId)
    (hx : x ∈ (explorationState cfg acc seeds h).state.visited) :
    x ∉ (explorationState cfg acc seeds (n + 1)).frontier := by
  intro hmem
  have hfr : x ∈ admittedOf cfg acc (explorationState cfg acc seeds n) := hmem
  exact mem_freshOf_not_visited (mem_admittedOf_fresh hfr)
    (mem_visited_mono hn hx)

/-- Witness for C3. -/
theorem spec_c3_witness :
    (0 ≤ 1) ∧ 0 ∈ (explorationState cfgSnowW accChainW [0] 0).state.visited ∧
      0 ∉ (explorationState cfgSnowW accChainW [0] 2).frontier :=
  ⟨by decide, by decide,
    spec_c3_no_reexpansion cfgSnowW accChainW [0] 0 1 (by decide) 0 (by decide)⟩

end SpikyBall

namespace SpikyBall

theorem selectEdges_src {cfg : SamplingConfig} {acc : GraphAccessor}
    {u : NodeId} {nbrs : List (NodeId × ℚ)} {s : Nat} {e : Edge}
    (he : e ∈ (selectEdges cfg acc u nbrs s).1) : e.src = u := by
  unfold selectEdges at he
  cases hm : cfg.mode with
  | snowball =>
    rw [hm] at he
    obtain ⟨p, -, hp⟩ := List.mem_map.1 he
    exact congrArg Edge.src hp.symm
  | forestFire =>
    rw [hm] at he
    clear hm
    induction nbrs generalizing s with
    | nil => simp [forestFilter] at he
    | cons p rest ih =>
      rw [forestFilter] at he
      by_cases hr : randFrac s < cfg.sampling_probability
      · rw [if_pos hr] at he
        rcases List.mem_cons.1 he with h | h
        · exact congrArg Edge.src h
        · exact ih h
      · rw [if_neg hr] at he
        exact ih he
  | fireball =>
    rw [hm] at he
    obtain ⟨p, -, hp⟩ := List.mem_map.1 he
    exact congrArg Edge.src hp.symm
  | coreball =>
    rw [hm] at he
    obtain ⟨p, -, hp⟩ := List.mem_map.1 he
    exact congrArg Edge.src hp.symm

theorem expandNode_src {cfg : SamplingConfig} {acc : GraphAccessor}
    {u : NodeId} {s : Nat} {e : Edge}
    (he : e ∈ (expandNode cfg acc u s).1) : e.src = u := by
  unfold expandNode at he
  cases h : retryNeighbors cfg acc u with
  | none => rw [h] at he; simp at he
  | some nbrs => rw [h] at he; exact selectEdges_src he

theorem expandFrontier_src {cfg : SamplingConfig} {acc : GraphAccessor}
    {e : Edge} :
    ∀ {l : List NodeId} {s : Nat},
      e ∈ (expandFrontier cfg acc l s).1 → e.src ∈ l := by
  intro l
  induction l with
  | nil => intro s he; simp [expandFrontier] at he
  | cons u rest ih =>
    intro s he
    rw [expandFrontier] at he
    rcases List.mem_append.1 he with h | h
    · exact (expandNode_src h) ▸ List.mem_cons_self u rest
    · exact List.mem_cons_of_mem u (ih h)

/-- Invariant: the frontier is contained in the VisitedSet and every
recorded edge has both endpoints in the VisitedSet. -/
def StateValid (rs : RunState) : Prop :=
  (∀ u ∈ rs.frontier, u ∈ rs.state.visited) ∧
    ∀ e ∈ rs.state.edges,
      e.src ∈ rs.state.visited ∧ e.tgt ∈ rs.state.visited

theorem stateValid_init (cfg : SamplingConfig) (seeds : List NodeId) :
    StateValid (initState cfg seeds) := by
  constructor
  · intro u hu; exact hu
  · intro e he; simp [initState] at he

theorem stateValid_hopStep {cfg : SamplingConfig} {acc : GraphAccessor}
    {rs : RunState} (h : StateValid rs) :
    StateValid (hopStep cfg acc rs) := by
  obtain ⟨hf, he⟩ := h
  constructor
  · intro u hu
    rw [hopStep_visited]
    exact List.mem_append_right _ hu
  · intro e hme
    have hedges : e ∈ rs.state.edges ++
        (selectedOf cfg acc rs).filter
          (fun e => ((hopStep cfg acc rs).state.visited).contains e.tgt) := hme
    rcases List.mem_append.1 hedges with hold | hnew
    · obtain ⟨h1, h2⟩ := he e hold
      exact ⟨mem_visited_hopStep h1, mem_visited_hopStep h2⟩
    · have hsel := List.mem_of_mem_filter hnew
      have htgt := List.of_mem_filter hnew
      constructor
      · have hsrc : e.src ∈ rs.frontier := expandFrontier_src hsel
        exact mem_visited_hopStep (hf _ hsrc)
      · simpa using htgt

theorem stateValid_runLoop {cfg : SamplingConfig} {acc : GraphAccessor} :
    ∀ (fuel : Nat) (rs : RunState), StateValid rs →
      StateValid (runLoop cfg acc fuel rs).1
  | 0, rs, h => h
  | fuel + 1, rs, h => by
    rw [runLoop]
    cases hst : stopCheck cfg rs with
    | some r => exact h
    | none =>
      simp only
      exact stateValid_runLoop fuel _ (stateValid_hopStep h)

theorem pruneStep_edges_subset {k : Nat} {g : OutGraph} {e : Edge}
    (he : e ∈ (pruneStep k g).edges) : e ∈ g.edges :=
  List.mem_of_mem_filter he

theorem pruneIter_edges_subset {k : Nat} :
    ∀ {fuel : Nat} {g : OutGraph} {e : Edge},
      e ∈ (pruneIter k fuel g).edges → e ∈ g.edges := by
  intro fuel
  induction fuel with
  | zero => intro g e he; exact he
  | succ fuel ih =>
    intro g e he
    rw [pruneIter] at he
    split at he
    · exact he
    · exact pruneStep_edges_subset (ih he)

theorem finalize_edges_subset {st : SampleState} {gcfg : GraphConfig}
    {e : Edge} (he : e ∈ (finalize st gcfg).edges) : e ∈ st.edges := by
  unfold finalize at he
  split at he
  · exact List.mem_of_mem_filter (pruneIter_edges_subset he)
  · exact List.mem_of_mem_filter (pruneIter_edges_subset he)

/-- Claim C4: every edge recorded in the SampleState has both endpoints in the
VisitedSet at every point of the hop trajectory, and every edge of the
finalized output graph connects two nodes of the final VisitedSet. -/
theorem spec_c4_edge_validity (cfg : SamplingConfig) (gcfg : GraphConfig)
    (acc : GraphAccessor) (seeds : List NodeId) :
    (∀ (n : Nat), ∀ e ∈ (explorationState cfg acc seeds n).state.edges,
        e.src ∈ (explorationState cfg acc seeds n).state.visited ∧
          e.tgt ∈ (explorationState cfg acc seeds n).state.visited) ∧
      ∀ e ∈ (runExplore cfg gcfg acc seeds).1.edges,
        e.src ∈ (runLoop cfg acc (cfg.max_hop_depth + 1)
            (initState cfg seeds)).1.state.visited ∧
          e.tgt ∈ (runLoop cfg acc (cfg.max_hop_depth + 1)
            (initState cfg seeds)).1.state.visited := by
  constructor
  · intro n
    have : StateValid (explorationState cfg acc seeds n) := by
      induction n with
      | zero => exact stateValid_init cfg seeds
      | succ n ih => exact stateValid_hopStep ih
    exact this.2
  · intro e he
    have hsub : e ∈ (runLoop cfg acc (cfg.max_hop_depth + 1)
        (initState cfg seeds)).1.state.edges := finalize_edges_subset he
    exact (stateValid_runLoop _ _ (stateValid_init cfg seeds)).2 e hsub

/-- Witness for C4. -/
theorem spec_c4_witness :
    (⟨0, 1, 1⟩ : Edge) ∈ (runExplore cfgSnowW
        { min_weight := 0, min_degree := 0, drop_isolates := false }
        accChainW [0]).1.edges ∧
      (⟨0, 1, 1⟩ : Edge).src ∈ (runLoop cfgSnowW accChainW
          (cfgSnowW.max_hop_depth + 1)
          (initState cfgSnowW [0])).1.state.visited ∧
        (⟨0, 1, 1⟩ : Edge).tgt ∈ (runLoop cfgSnowW accChainW
            (cfgSnowW.max_hop_depth + 1)
            (initState cfgSnowW [0])).1.state.visited :=
  ⟨by decide,
    (spec_c4_edge_validity cfgSnowW
        { min_weight := 0, min_degree := 0, drop_isolates := false }
        accChainW [0]).2 ⟨0, 1, 1⟩ (by decide)⟩

end SpikyBall

namespace SpikyBall

/-- Claim C5: the sampler is deterministic: two runs with identical
configuration (including the random seed), identical seed nodes, and a
Graph Accessor returning identical results produce identical output
graphs and diagnostics. -/
theorem spec_c5_determinism (cfg : SamplingConfig) (gcfg : GraphConfig)
    (seeds : List NodeId) (acc1 acc2 : GraphAccessor)
    (hq : ∀ i u, acc1.query i u = acc2.query i u)
    (hd : ∀ u, acc1.degree u = acc2.degree u) :
    runExplore cfg gcfg acc1 seeds = runExplore cfg gcfg acc2 seeds := by
  have hacc : acc1 = acc2 := by
    cases acc1
    cases acc2
    congr 1
    · funext i u
      exact hq i u
    · funext u
      exact hd u
  rw [hacc]

/-- Concrete trivial builder configuration used to instantiate proved
properties on a closed run. -/
def gcfgTrivW : GraphConfig :=
  { min_weight := 0, min_degree := 0, drop_isolates := false }

/-- Witness for C5. -/
theorem spec_c5_witness :
    (∀ i u, accChainW.query i u = accChainW.query i u) ∧
      (∀ u, accChainW.degree u = accChainW.degree u) ∧
      runExplore cfgSnowW gcfgTrivW accChainW [0] =
        runExplore cfgSnowW gcfgTrivW accChainW [0] :=
  ⟨fun _ _ => rfl, fun _ => rfl,
    spec_c5_determinism cfgSnowW gcfgTrivW
      [0] accChainW accChainW (fun _ _ => rfl) (fun _ => rfl)⟩

theorem expandNode_fail {cfg : SamplingConfig} {acc : GraphAccessor}
    {u : NodeId} (hfail : retryNeighbors cfg acc u = none) (s : Nat) :
    expandNode cfg acc u s = ([], 1, s) := by
  unfold expandNode
  rw [hfail]

theorem expandFrontier_skips_ge {cfg : SamplingConfig}
    {acc : GraphAccessor} {u : NodeId}
    (hfail : retryNeighbors cfg acc u = none) :
    ∀ {l : List NodeId} {s : Nat}, u ∈ l →
      1 ≤ (expandFrontier cfg acc l s).2.1 := by
  intro l
  induction l with
  | nil => intro s hu; simp at hu
  | cons v rest ih =>
    intro s hu
    rw [expandFrontier]
    rcases List.mem_cons.1 hu with h | h
    · subst h
      rw [expandNode_fail hfail]
      simp only
      omega
    · have := ih (s := (expandNode cfg acc v s).2.2) h
      simp only
      omega

theorem expandFrontier_no_failed_src {cfg : SamplingConfig}
    {acc : GraphAccessor} {u : NodeId}
    (hfail : retryNeighbors cfg acc u = none) :
    ∀ {l : List NodeId} {s : Nat} {e : Edge},
      e ∈ (expandFrontier cfg acc l s).1 → e.src ≠ u := by
  intro l
  induction l with
  | nil => intro s e he; simp [expandFrontier] at he
  | cons v rest ih =>
    intro s e he
    rw [expandFrontier] at he
    rcases List.mem_append.1 he with h | h
    · by_cases hv : v = u
      · subst hv
        rw [expandNode_fail hfail] at h
        simp at h
      · exact (expandNode_src h) ▸ hv
    · exact ih h

/-- Claim C9: a neighbor query that fails on every bounded retry never aborts
the run: the node is treated as having zero outgoing edges, it is counted
as skipped in the diagnostics, it contributes no recorded edge, and the
run still returns an output graph together with diagnostics. -/
theorem spec_c9_failure_absorbed (cfg : SamplingConfig)
    (acc : GraphAccessor) (u : NodeId)
    (hfail : retryNeighbors cfg acc u = none) :
    (∀ s, expandNode cfg acc u s = ([], 1, s)) ∧
      (∀ rs : RunState, u ∈ rs.frontier →
        rs.state.skipped + 1 ≤ (hopStep cfg acc rs).state.skipped) ∧
      (∀ (rs : RunState), ∀ e ∈ (hopStep cfg acc rs).state.edges,
        e.src = u → e ∈ rs.state.edges) ∧
      ∀ (gcfg : GraphConfig) (seeds : List NodeId),
        ∃ g d, runExplore cfg gcfg acc seeds = (g, d) := by
  refine ⟨expandNode_fail hfail, ?_, ?_, ?_⟩
  · intro rs hu
    have h1 : 1 ≤ skipsOf cfg acc rs := expandFrontier_skips_ge hfail hu
    show rs.state.skipped + 1 ≤ rs.state.skipped + skipsOf cfg acc rs
    omega
  · intro rs e he hsrc
    have hsplit : e ∈ rs.state.edges ++
        (selectedOf cfg acc rs).filter
          (fun e => ((hopStep cfg acc rs).state.visited).contains e.tgt) := he
    rcases List.mem_append.1 hsplit with h | h
    · exact h
    · exact absurd hsrc
        (expandFrontier_no_failed_src hfail (List.mem_of_mem_filter h))
  · intro gcfg seeds
    exact ⟨_, _, rfl⟩

/-- Concrete accessor whose every query fails, used to instantiate the
failure-absorption property. -/
def accFailW : GraphAccessor :=
  { query := fun _ _ => none
    degree := fun _ => 0 }

/-- Witness for C9. -/
theorem spec_c9_witness :
    retryNeighbors cfgSnowW accFailW 0 = none ∧
      expandNode cfgSnowW accFailW 0 7 = ([], 1, 7) ∧
      (initState cfgSnowW [0]).state.skipped + 1 ≤
        (hopStep cfgSnowW accFailW (initState cfgSnowW [0])).state.skipped :=
  ⟨by decide,
    (spec_c9_failure_absorbed cfgSnowW accFailW 0 (by decide)).1 7,
    (spec_c9_failure_absorbed cfgSnowW accFailW 0 (by decide)).2.1
      (initState cfgSnowW [0]) (by decide)⟩

theorem pruneIter_fixed (k : Nat) :
    ∀ (fuel : Nat) (g : OutGraph), g.nodes.length ≤ fuel →
      (pruneStep k (pruneIter k fuel g)).nodes.length =
        (pruneIter k fuel g).nodes.length := by
  intro fuel
  induction fuel with
  | zero =>
    intro g hg
    have hnil : g.nodes = [] := List.eq_nil_of_length_eq_zero (Nat.le_zero.1 hg)
    show (pruneStep k g).nodes.length = g.nodes.length
    simp [pruneStep, hnil]
  | succ fuel ih =>
    intro g hg
    rw [pruneIter]
    split
    · assumption
    · have hlt : (pruneStep k g).nodes.length < g.nodes.length :=
        Nat.lt_of_le_of_ne (List.length_filter_le _ _) (by assumption)
      exact ih _ (by omega)

theorem pruneIter_of_fixed {k : Nat} {g : OutGraph}
    (h : (pruneStep k g).nodes.length = g.nodes.length) :
    ∀ fuel, pruneIter k fuel g = g := by
  intro fuel
  cases fuel with
  | zero => rfl
  | succ fuel => rw [pruneIter]; simp [h]

/-- Claim C8: the min-degree pruning of the Sampled-Graph Builder is
idempotent: applying the transitive pruning twice yields the same graph
as applying it once. -/
theorem spec_c8_prune_idempotent (k : Nat) (g : OutGraph) :
    minDegreePrune k (minDegreePrune k g) = minDegreePrune k g := by
  have hfix : (pruneStep k (minDegreePrune k g)).nodes.length =
      (minDegreePrune k g).nodes.length :=
    pruneIter_fixed k g.nodes.length g (Nat.le_refl _)
  exact pruneIter_of_fixed hfix _

end SpikyBall

namespace LabelSpreading

theorem lsLoop_iterate {n m : Nat} (S : Mat n n) (labels : Mat n m)
    (alpha tol : ℚ) :
    ∀ (fuel : Nat) (Y : Mat n m), ∃ k, k ≤ fuel ∧
      lsLoop S labels alpha tol fuel Y = (lsStep S labels alpha)^[k] Y := by
  intro fuel
  induction fuel with
  | zero => exact fun Y => ⟨0, Nat.le_refl 0, rfl⟩
  | succ fuel ih =>
    intro Y
    rw [lsLoop]
    split
    · exact ⟨1, by omega, by rw [Function.iterate_one]⟩
    · obtain ⟨k, hk, he⟩ := ih (lsStep S labels alpha Y)
      exact ⟨k + 1, by omega,
        by rw [he, Function.iterate_succ_apply]⟩

theorem lsLoop_no_convergence {n m : Nat} {S : Mat n n} {labels : Mat n m}
    {alpha tol : ℚ}
    (hnc : ∀ j : Nat,
      ¬ sqDist ((lsStep S labels alpha)^[j + 1] (fun _ _ => 0))
          ((lsStep S labels alpha)^[j] (fun _ _ => 0)) < tol ^ 2) :
    ∀ (fuel k : Nat),
      lsLoop S labels alpha tol fuel
          ((lsStep S labels alpha)^[k] (fun _ _ => 0)) =
        (lsStep S labels alpha)^[fuel + k] (fun _ _ => 0) := by
  intro fuel
  induction fuel with
  | zero => intro k; rw [Nat.zero_add]; rfl
  | succ fuel ih =>
    intro k
    rw [lsLoop]
    have hstep : lsStep S labels alpha
        ((lsStep S labels alpha)^[k] (fun _ _ => 0)) =
        (lsStep S labels alpha)^[k + 1] (fun _ _ => 0) :=
      (Function.iterate_succ_apply' _ _ _).symm
    rw [hstep, if_neg (hnc k), ih (k + 1)]
    congr 1
    omega

/-- Claim C10: labelSpreading always terminates within 1000 iterations of the
update starting from the zero matrix, and when the convergence tolerance
is never met it simply returns the 1000th iterate, signaling nothing. -/
theorem spec_c10_labelSpreading_terminates (n m : Nat) (S : Mat n n)
    (labels : Mat n m) (alpha tol : ℚ) :
    (∃ k, k ≤ 1000 ∧ labelSpreading S labels alpha tol =
        (lsStep S labels alpha)^[k] (fun _ _ => 0)) ∧
      ((∀ j : Nat,
          ¬ sqDist ((lsStep S labels alpha)^[j + 1] (fun _ _ => 0))
              ((lsStep S labels alpha)^[j] (fun _ _ => 0)) < tol ^ 2) →
        labelSpreading S labels alpha tol =
          (lsStep S labels alpha)^[1000] (fun _ _ => 0)) := by
  constructor
  · exact lsLoop_iterate S labels alpha tol 1000 (fun _ _ => 0)
  · intro hnc
    have h0 : ((lsStep S labels alpha)^[0] (fun _ _ => 0) : Mat n m) =
        (fun _ _ => 0) := rfl
    have := lsLoop_no_convergence hnc 1000 0
    rw [h0] at this
    exact this

/-- Concrete 1 by 1 matrix instance on which the labelSpreading update
diverges: the iterate grows by one half each step. -/
def S1W : Mat 1 1 := fun _ _ => 2

/-- Concrete 1 by 1 label matrix for the divergent instance. -/
def L1W : Mat 1 1 := fun _ _ => 1

theorem lsStep_iterate_W (k : Nat) :
    (lsStep S1W L1W (1/2))^[k] (fun _ _ => 0) =
      fun _ _ => (k : ℚ) / 2 := by
  induction k with
  | zero => funext i j; simp
  | succ k ih =>
    rw [Function.iterate_succ_apply', ih]
    funext i j
    simp only [lsStep, S1W, L1W]
    rw [Fin.sum_univ_one]
    push_cast
    ring

theorem no_convergence_W (j : Nat) :
    ¬ sqDist ((lsStep S1W L1W (1/2))^[j + 1] (fun _ _ => 0))
        ((lsStep S1W L1W (1/2))^[j] (fun _ _ => 0)) < (1/1000 : ℚ) ^ 2 := by
  rw [lsStep_iterate_W, lsStep_iterate_W]
  have : sqDist (n := 1) (m := 1) (fun _ _ => ((j : ℚ) + 1) / 2)
      (fun _ _ => (j : ℚ) / 2) = 1/4 := by
    unfold sqDist
    rw [Fin.sum_univ_one, Fin.sum_univ_one]
    ring
  push_cast
  rw [this]
  norm_num

/-- Witness for C10. -/
theorem spec_c10_witness :
    (∀ j : Nat,
        ¬ sqDist ((lsStep S1W L1W (1/2))^[j + 1] (fun _ _ => 0))
            ((lsStep S1W L1W (1/2))^[j] (fun _ _ => 0)) < (1/1000 : ℚ) ^ 2) ∧
      labelSpreading S1W L1W (1/2) (1/1000) =
        (lsStep S1W L1W (1/2))^[1000] (fun _ _ => 0) :=
  ⟨no_convergence_W,
    (spec_c10_labelSpreading_terminates 1 1 S1W L1W (1/2) (1/1000)).2
      no_convergence_W⟩

end LabelSpreading

namespace SpikyBall

theorem nodup_length_le {l1 l2 : List NodeId} (h : l1.Nodup)
    (hsub : ∀ x ∈ l1, x ∈ l2) : l1.length ≤ l2.length := by
  calc l1.length = l1.toFinset.card := (List.toFinset_card_of_nodup h).symm
    _ ≤ l2.toFinset.card := Finset.card_le_card
        (fun x hx => List.mem_toFinset.2 (hsub x (List.mem_toFinset.1 hx)))
    _ ≤ l2.length := List.toFinset_card_le l2

theorem mem_iff_of_nodup_subset {l1 l2 : List NodeId} (h1 : l1.Nodup)
    (h2 : l2.Nodup) (hsub : ∀ x ∈ l1, x ∈ l2)
    (hlen : l2.length ≤ l1.length) : ∀ x, x ∈ l1 ↔ x ∈ l2 := by
  have hfin : l1.toFinset = l2.toFinset := by
    apply Finset.eq_of_subset_of_card_le
    · intro x hx
      exact List.mem_toFinset.2 (hsub x (List.mem_toFinset.1 hx))
    · rw [List.toFinset_card_of_nodup h1, List.toFinset_card_of_nodup h2]
      exact hlen
  intro x
  rw [← List.mem_toFinset, ← List.mem_toFinset (l := l2), hfin]

theorem mem_reach_succ {cfg : SamplingConfig} {acc : GraphAccessor}
    {seeds : List NodeId} {n : Nat} {x : NodeId} :
    x ∈ reachWithin cfg acc seeds (n + 1) ↔
      x ∈ reachWithin cfg acc seeds n ∨
        ∃ u ∈ reachWithin cfg acc seeds n, x ∈ nbrTargets cfg acc u := by
  show x ∈ reachStep cfg acc (reachWithin cfg acc seeds n) ↔ _
  simp [reachStep, List.mem_dedup, List.mem_append, List.mem_flatMap]

theorem reach_nodup (cfg : SamplingConfig) (acc : GraphAccessor)
    (seeds : List NodeId) (n : Nat) :
    (reachWithin cfg acc seeds n).Nodup := by
  cases n with
  | zero => exact List.nodup_dedup _
  | succ n => exact List.nodup_dedup _

theorem reach_mono {cfg : SamplingConfig} {acc : GraphAccessor}
    {seeds : List NodeId} {a b : Nat} (hab : a ≤ b) :
    ∀ x ∈ reachWithin cfg acc seeds a, x ∈ reachWithin cfg acc seeds b := by
  induction b, hab using Nat.le_induction with
  | base => exact fun x hx => hx
  | succ b _ ih => exact fun x hx => mem_reach_succ.2 (Or.inl (ih x hx))

theorem selectEdges_snowball {cfg : SamplingConfig} {acc : GraphAccessor}
    (hmode : cfg.mode = SamplingMode.snowball) (u : NodeId)
    (nbrs : List (NodeId × ℚ)) (s : Nat) :
    selectEdges cfg acc u nbrs s =
      (nbrs.map (fun p => ⟨u, p.1, p.2⟩), s) := by
  unfold selectEdges
  rw [hmode]

theorem expandNode_snowball_tgts {cfg : SamplingConfig}
    {acc : GraphAccessor} (hmode : cfg.mode = SamplingMode.snowball)
    (u : NodeId) (s : Nat) :
    ((expandNode cfg acc u s).1).map Edge.tgt = nbrTargets cfg acc u := by
  unfold expandNode
  cases h : retryNeighbors cfg acc u with
  | none => simp [nbrTargets, h]
  | some nbrs =>
    simp [selectEdges_snowball hmode u nbrs s, nbrTargets, h,
      List.map_map, Function.comp_def]

theorem mem_tgts_expandFrontier {cfg : SamplingConfig}
    {acc : GraphAccessor} (hmode : cfg.mode = SamplingMode.snowball) :
    ∀ (l : List NodeId) (s : Nat) (x : NodeId),
      x ∈ ((expandFrontier cfg acc l s).1).map Edge.tgt ↔
        ∃ u ∈ l, x ∈ nbrTargets cfg acc u := by
  intro l
  induction l with
  | nil => intro s x; simp [expandFrontier]
  | cons u rest ih =>
    intro s x
    rw [expandFrontier]
    simp only [List.map_append, List.mem_append,
      expandNode_snowball_tgts hmode, ih]
    constructor
    · rintro (h | ⟨v, hv, hx⟩)
      · exact ⟨u, List.mem_cons_self u rest, h⟩
      · exact ⟨v, List.mem_cons_of_mem _ hv, hx⟩
    · rintro ⟨v, hv, hx⟩
      rcases List.mem_cons.1 hv with h | h
      · subst h; exact Or.inl hx
      · exact Or.inr ⟨v, h, hx⟩

theorem mem_freshOf_iff {cfg : SamplingConfig} {acc : GraphAccessor}
    (hmode : cfg.mode = SamplingMode.snowball) (rs : RunState)
    (x : NodeId) :
    x ∈ freshOf cfg acc rs ↔
      (∃ u ∈ rs.frontier, x ∈ nbrTargets cfg acc u) ∧
        x ∉ rs.state.visited := by
  unfold freshOf selectedOf
  rw [List.mem_dedup, List.mem_filter,
    mem_tgts_expandFrontier hmode rs.frontier rs.seed x]
  simp

theorem freshOf_nodup (cfg : SamplingConfig) (acc : GraphAccessor)
    (rs : RunState) : (freshOf cfg acc rs).Nodup :=
  List.nodup_dedup _

theorem cappedOf_none {cfg : SamplingConfig} {acc : GraphAccessor}
    (hcap : cfg.max_nodes_per_hop = none) (rs : RunState) :
    (cappedOf cfg acc rs).1 = freshOf cfg acc rs := by
  unfold cappedOf applyCap
  rw [hcap]

theorem admittedOf_eq_fresh {cfg : SamplingConfig} {acc : GraphAccessor}
    {rs : RunState} (hcap : cfg.max_nodes_per_hop = none)
    (hlen : (freshOf cfg acc rs).length ≤
      cfg.target_node_count - rs.state.visited.length) :
    admittedOf cfg acc rs = freshOf cfg acc rs := by
  unfold admittedOf
  rw [cappedOf_none hcap]
  exact List.take_of_length_le hlen

/-- Invariant of the snowball run: the VisitedSet is exactly the set
reachable within the current hop count, the frontier sits inside the
VisitedSet, every visited node outside the frontier is fully expanded,
the VisitedSet has no duplicates, and the hop count is within depth. -/
def SnowInv (cfg : SamplingConfig) (acc : GraphAccessor)
    (seeds : List NodeId) (rs : RunState) : Prop :=
  (∀ x, x ∈ rs.state.visited ↔
      x ∈ reachWithin cfg acc seeds rs.state.hop) ∧
    (∀ u ∈ rs.frontier, u ∈ rs.state.visited) ∧
    (∀ u ∈ rs.state.visited, u ∉ rs.frontier →
      ∀ y ∈ nbrTargets cfg acc u, y ∈ rs.state.visited) ∧
    rs.state.visited.Nodup ∧ rs.state.hop ≤ cfg.max_hop_depth

theorem snowInv_init (cfg : SamplingConfig) (acc : GraphAccessor)
    (seeds : List NodeId) : SnowInv cfg acc seeds (initState cfg seeds) := by
  refine ⟨fun x => Iff.rfl, fun u hu => hu, ?_, List.nodup_dedup _,
    Nat.zero_le _⟩
  intro u hu hnof
  exact absurd hu hnof

end SpikyBall

namespace SpikyBall

theorem stopCheck_eq_none {cfg : SamplingConfig} {rs : RunState} :
    stopCheck cfg rs = none ↔
      rs.state.visited.length < cfg.target_node_count ∧
        rs.frontier ≠ [] ∧ rs.state.hop < cfg.max_hop_depth := by
  constructor
  · intro h
    unfold stopCheck at h
    split_ifs at h with h1 h2 h3
    · exact ⟨by omega, h2, by omega⟩
  · rintro ⟨ha, hb, hc⟩
    unfold stopCheck
    rw [if_neg (by omega), if_neg hb, if_neg (by omega)]

theorem stopCheck_some_cases {cfg : SamplingConfig} {rs : RunState}
    {r : StopReason} (h : stopCheck cfg rs = some r) :
    cfg.target_node_count ≤ rs.state.visited.length ∨
      rs.frontier = [] ∨ cfg.max_hop_depth ≤ rs.state.hop := by
  unfold stopCheck at h
  split_ifs at h with h1 h2 h3
  · exact Or.inl h1
  · exact Or.inr (Or.inl h2)
  · exact Or.inr (Or.inr h3)

theorem snowInv_step {cfg : SamplingConfig} {acc : GraphAccessor}
    {seeds : List NodeId} (hmode : cfg.mode = SamplingMode.snowball)
    (hcap : cfg.max_nodes_per_hop = none)
    (hsize : (reachWithin cfg acc seeds cfg.max_hop_depth).length ≤
      cfg.target_node_count)
    {rs : RunState} (hinv : SnowInv cfg acc seeds rs)
    (hstop : stopCheck cfg rs = none) :
    SnowInv cfg acc seeds (hopStep cfg acc rs) := by
  obtain ⟨hiff, hfv, hexp, hnd, hhop⟩ := hinv
  obtain ⟨hlen, hfne, hdepth⟩ := stopCheck_eq_none.1 hstop
  have hhop1 : rs.state.hop + 1 ≤ cfg.max_hop_depth := hdepth
  have hVsub : ∀ x ∈ rs.state.visited,
      x ∈ reachWithin cfg acc seeds (rs.state.hop + 1) :=
    fun x hx => mem_reach_succ.2 (Or.inl ((hiff x).1 hx))
  have hFsub : ∀ x ∈ freshOf cfg acc rs,
      x ∈ reachWithin cfg acc seeds (rs.state.hop + 1) := by
    intro x hx
    obtain ⟨⟨u, hu, hxu⟩, -⟩ := (mem_freshOf_iff hmode rs x).1 hx
    exact mem_reach_succ.2 (Or.inr ⟨u, (hiff u).1 (hfv u hu), hxu⟩)
  have hdisj : List.Disjoint rs.state.visited (freshOf cfg acc rs) := by
    intro a ha hafresh
    exact ((mem_freshOf_iff hmode rs a).1 hafresh).2 ha
  have hnodup2 : (rs.state.visited ++ freshOf cfg acc rs).Nodup :=
    List.Nodup.append hnd (freshOf_nodup cfg acc rs) hdisj
  have hsub2 : ∀ x ∈ rs.state.visited ++ freshOf cfg acc rs,
      x ∈ reachWithin cfg acc seeds cfg.max_hop_depth := by
    intro x hx
    rcases List.mem_append.1 hx with h | h
    · exact reach_mono hhop1 x (hVsub x h)
    · exact reach_mono hhop1 x (hFsub x h)
  have hlen2 := nodup_length_le hnodup2 hsub2
  rw [List.length_append] at hlen2
  have hfreshlen : (freshOf cfg acc rs).length ≤
      cfg.target_node_count - rs.state.visited.length := by omega
  have hadm : admittedOf cfg acc rs = freshOf cfg acc rs :=
    admittedOf_eq_fresh hcap hfreshlen
  refine ⟨?_, ?_, ?_, ?_, ?_⟩
  · intro x
    rw [hopStep_visited, hadm, hopStep_hop]
    constructor
    · intro hx
      rcases List.mem_append.1 hx with h | h
      · exact hVsub x h
      · exact hFsub x h
    · intro hx
      rcases mem_reach_succ.1 hx with h | ⟨u, hu, hxu⟩
      · exact List.mem_append_left _ ((hiff x).2 h)
      · have huV : u ∈ rs.state.visited := (hiff u).2 hu
        by_cases hxV : x ∈ rs.state.visited
        · exact List.mem_append_left _ hxV
        · by_cases huF : u ∈ rs.frontier
          · exact List.mem_append_right _
              ((mem_freshOf_iff hmode rs x).2 ⟨⟨u, huF, hxu⟩, hxV⟩)
          · exact absurd (hexp u huV huF x hxu) hxV
  · intro u hu
    rw [hopStep_frontier, hadm] at hu
    rw [hopStep_visited, hadm]
    exact List.mem_append_right _ hu
  · intro u hu hnof y hy
    rw [hopStep_visited, hadm] at hu ⊢
    rw [hopStep_frontier, hadm] at hnof
    rcases List.mem_append.1 hu with h | h
    · by_cases huF : u ∈ rs.frontier
      · by_cases hyV : y ∈ rs.state.visited
        · exact List.mem_append_left _ hyV
        · exact List.mem_append_right _
            ((mem_freshOf_iff hmode rs y).2 ⟨⟨u, huF, hy⟩, hyV⟩)
      · exact List.mem_append_left _ (hexp u h huF y hy)
    · exact absurd h hnof
  · rw [hopStep_visited, hadm]
    exact hnodup2
  · rw [hopStep_hop]
    omega

theorem reach_subset_visited_of_empty {cfg : SamplingConfig}
    {acc : GraphAccessor} {seeds : List NodeId} {rs : RunState}
    (hinv : SnowInv cfg acc seeds rs) (hempty : rs.frontier = []) :
    ∀ m, ∀ x ∈ reachWithin cfg acc seeds m, x ∈ rs.state.visited := by
  obtain ⟨hiff, hfv, hexp, hnd, hhop⟩ := hinv
  intro m
  induction m with
  | zero =>
    intro x hx
    exact (hiff x).2 (reach_mono (Nat.zero_le _) x hx)
  | succ m ih =>
    intro x hx
    rcases mem_reach_succ.1 hx with h | ⟨u, hu, hxu⟩
    · exact ih x h
    · have huV := ih u hu
      have hunotF : u ∉ rs.frontier := by rw [hempty]; simp
      exact hexp u huV hunotF x hxu

theorem snowInv_stopped_iff {cfg : SamplingConfig} {acc : GraphAccessor}
    {seeds : List NodeId}
    (hsize : (reachWithin cfg acc seeds cfg.max_hop_depth).length ≤
      cfg.target_node_count)
    {rs : RunState} (hinv : SnowInv cfg acc seeds rs)
    (hcases : cfg.target_node_count ≤ rs.state.visited.length ∨
      rs.frontier = [] ∨ cfg.max_hop_depth ≤ rs.state.hop) :
    ∀ x, x ∈ rs.state.visited ↔
      x ∈ reachWithin cfg acc seeds cfg.max_hop_depth := by
  obtain ⟨hiff, hfv, hexp, hnd, hhop⟩ := hinv
  rcases hcases with hT | hE | hD
  · apply mem_iff_of_nodup_subset hnd (reach_nodup cfg acc seeds _)
    · intro x hx
      exact reach_mono hhop x ((hiff x).1 hx)
    · omega
  · intro x
    constructor
    · intro hx
      exact reach_mono hhop x ((hiff x).1 hx)
    · intro hx
      exact reach_subset_visited_of_empty ⟨hiff, hfv, hexp, hnd, hhop⟩
        hE _ x hx
  · have heq : rs.state.hop = cfg.max_hop_depth := Nat.le_antisymm hhop hD
    intro x
    rw [← heq]
    exact hiff x

theorem snowball_loop_iff {cfg : SamplingConfig} {acc : GraphAccessor}
    {seeds : List NodeId} (hmode : cfg.mode = SamplingMode.snowball)
    (hcap : cfg.max_nodes_per_hop = none)
    (hsize : (reachWithin cfg acc seeds cfg.max_hop_depth).length ≤
      cfg.target_node_count) :
    ∀ (fuel : Nat) (rs : RunState), SnowInv cfg acc seeds rs →
      cfg.max_hop_depth + 1 ≤ rs.state.hop + fuel →
      ∀ x, x ∈ (runLoop cfg acc fuel rs).1.state.visited ↔
        x ∈ reachWithin cfg acc seeds cfg.max_hop_depth := by
  intro fuel
  induction fuel with
  | zero =>
    intro rs hinv hfuel
    have := hinv.2.2.2.2
    omega
  | succ fuel ih =>
    intro rs hinv hfuel
    rw [runLoop]
    cases hst : stopCheck cfg rs with
    | some r => exact snowInv_stopped_iff hsize hinv (stopCheck_some_cases hst)
    | none =>
      simp only
      exact ih _ (snowInv_step hmode hcap hsize hinv hst)
        (by rw [hopStep_hop]; omega)

/-- Claim C6: with snowball mode and an unbounded per-hop cap, and room under
the target node count for the whole reachable set, the VisitedSet of a
full run is exactly the set of nodes reachable from the seeds within the
configured maximum hop depth. -/
theorem spec_c6_snowball_completeness (cfg : SamplingConfig)
    (acc : GraphAccessor) (seeds : List NodeId)
    (hmode : cfg.mode = SamplingMode.snowball)
    (hcap : cfg.max_nodes_per_hop = none)
    (hsize : (reachWithin cfg acc seeds cfg.max_hop_depth).length ≤
      cfg.target_node_count) :
    ∀ x, x ∈ (runLoop cfg acc (cfg.max_hop_depth + 1)
        (initState cfg seeds)).1.state.visited ↔
      x ∈ reachWithin cfg acc seeds cfg.max_hop_depth :=
  snowball_loop_iff hmode hcap hsize (cfg.max_hop_depth + 1)
    (initState cfg seeds) (snowInv_init cfg acc seeds) (by simp [initState])

/-- Witness for C6. -/
theorem spec_c6_witness :
    cfgSnowW.mode = SamplingMode.snowball ∧
      cfgSnowW.max_nodes_per_hop = none ∧
      (reachWithin cfgSnowW accChainW [0]
          cfgSnowW.max_hop_depth).length ≤ cfgSnowW.target_node_count ∧
      (2 ∈ (runLoop cfgSnowW accChainW (cfgSnowW.max_hop_depth + 1)
          (initState cfgSnowW [0])).1.state.visited ↔
        2 ∈ reachWithin cfgSnowW accChainW [0] cfgSnowW.max_hop_depth) :=
  ⟨rfl, rfl, by decide,
    spec_c6_snowball_completeness cfgSnowW accChainW [0] rfl rfl
      (by decide) 2⟩

end SpikyBall

namespace SpikyBall

attribute [local semireducible] Rat.mul Rat.inv Rat.add Rat.sub

/-- Concrete accessor for the coreball counterexample: node 0 has the
three neighbors 1, 2, 3 whose original-graph degrees are 3, 1 and 2. -/
def accCoreW : GraphAccessor :=
  { query := fun _ v => if v = 0 then some [(1, 1), (2, 1), (3, 1)] else some []
    degree := fun v => if v = 1 then 3 else if v = 3 then 2 else 1 }

/-- Concrete coreball configuration, parametrized by the degree-bias
exponent only; every other field is fixed. -/
def cfgCoreW (c : Nat) : SamplingConfig :=
  { target_node_count := 2
    max_hop_depth := 1
    sampling_probability := 1/3
    max_nodes_per_hop := none
    mode := SamplingMode.coreball
    distrib_coeff := c
    random_seed := 1503238553
    max_retries := 0 }

/-- Counterexample to claim C7: two coreball runs over the same graph, the same
seed node and the same random seed, differing only in distrib_coeff; the
run with the larger exponent admits a node of strictly smaller
original-graph degree, so its mean admitted degree is strictly lower. -/
theorem spec_c7_counterexample :
    cfgCoreW 2 = { cfgCoreW 1 with distrib_coeff := 2 } ∧
      meanOrigDegree accCoreW (runLoop (cfgCoreW 2) accCoreW
          ((cfgCoreW 2).max_hop_depth + 1)
          (initState (cfgCoreW 2) [0])).1.state.visited <
        meanOrigDegree accCoreW (runLoop (cfgCoreW 1) accCoreW
          ((cfgCoreW 1).max_hop_depth + 1)
          (initState (cfgCoreW 1) [0])).1.state.visited :=
  ⟨by decide, by decide⟩

theorem edgeScore_coreball {cfg : SamplingConfig} {acc : GraphAccessor}
    (hmode : cfg.mode = SamplingMode.coreball) (u : NodeId)
    (p : NodeId × ℚ) :
    edgeScore cfg acc u p =
      p.2 * (((acc.degree u : ℚ)) * ((acc.degree p.1 : ℚ)))
        ^ cfg.distrib_coeff := by
  unfold edgeScore
  rw [hmode]

/-- Claim C7 as amended: what increases monotonically with distrib_coeff is the
selection bias, not the per-seed outcome: for two coreball candidate
edges of equal nonnegative weight where the first target has the larger
original-graph degree, raising distrib_coeff never decreases the ratio of
the first score to the second (stated cross-multiplied).  The per-seed
run-level mean-degree comparison is refuted by the counterexample. -/
theorem spec_c7_amended_bias_monotone (cfg cfg2 : SamplingConfig)
    (acc : GraphAccessor) (u : NodeId) (p1 p2 : NodeId × ℚ)
    (hmode : cfg.mode = SamplingMode.coreball)
    (hmode2 : cfg2.mode = SamplingMode.coreball)
    (hc : cfg.distrib_coeff ≤ cfg2.distrib_coeff)
    (hw : p1.2 = p2.2) (hwpos : 0 ≤ p2.2)
    (hdeg : acc.degree p2.1 ≤ acc.degree p1.1) :
    edgeScore cfg acc u p1 * edgeScore cfg2 acc u p2 ≤
      edgeScore cfg2 acc u p1 * edgeScore cfg acc u p2 := by
  rw [edgeScore_coreball hmode, edgeScore_coreball hmode2,
    edgeScore_coreball hmode2, edgeScore_coreball hmode, hw]
  obtain ⟨k, hk⟩ := Nat.exists_eq_add_of_le hc
  rw [hk, pow_add, pow_add]
  have hb0 : (0 : ℚ) ≤ (acc.degree u : ℚ) * (acc.degree p2.1 : ℚ) := by
    positivity
  have ha0 : (0 : ℚ) ≤ (acc.degree u : ℚ) * (acc.degree p1.1 : ℚ) := by
    positivity
  have hab : (acc.degree u : ℚ) * (acc.degree p2.1 : ℚ) ≤
      (acc.degree u : ℚ) * (acc.degree p1.1 : ℚ) := by
    apply mul_le_mul_of_nonneg_left _ (by positivity)
    exact_mod_cast hdeg
  have hpow : ((acc.degree u : ℚ) * (acc.degree p2.1 : ℚ)) ^ k ≤
      ((acc.degree u : ℚ) * (acc.degree p1.1 : ℚ)) ^ k :=
    pow_le_pow_left₀ hb0 hab k
  have hcoefnn : (0 : ℚ) ≤ p2.2 * p2.2 *
      (((acc.degree u : ℚ) * (acc.degree p1.1 : ℚ)) ^ cfg.distrib_coeff *
        ((acc.degree u : ℚ) * (acc.degree p2.1 : ℚ)) ^ cfg.distrib_coeff) :=
    mul_nonneg (mul_nonneg hwpos hwpos)
      (mul_nonneg (pow_nonneg ha0 _) (pow_nonneg hb0 _))
  calc p2.2 * ((acc.degree u : ℚ) * (acc.degree p1.1 : ℚ))
          ^ cfg.distrib_coeff *
        (p2.2 * (((acc.degree u : ℚ) * (acc.degree p2.1 : ℚ))
          ^ cfg.distrib_coeff *
          ((acc.degree u : ℚ) * (acc.degree p2.1 : ℚ)) ^ k))
      = p2.2 * p2.2 *
          (((acc.degree u : ℚ) * (acc.degree p1.1 : ℚ))
            ^ cfg.distrib_coeff *
           ((acc.degree u : ℚ) * (acc.degree p2.1 : ℚ))
            ^ cfg.distrib_coeff) *
          ((acc.degree u : ℚ) * (acc.degree p2.1 : ℚ)) ^ k := by ring
    _ ≤ p2.2 * p2.2 *
          (((acc.degree u : ℚ) * (acc.degree p1.1 : ℚ))
            ^ cfg.distrib_coeff *
           ((acc.degree u : ℚ) * (acc.degree p2.1 : ℚ))
            ^ cfg.distrib_coeff) *
          ((acc.degree u : ℚ) * (acc.degree p1.1 : ℚ)) ^ k :=
        mul_le_mul_of_nonneg_left hpow hcoefnn
    _ = p2.2 * (((acc.degree u : ℚ) * (acc.degree p1.1 : ℚ))
            ^ cfg.distrib_coeff *
          ((acc.degree u : ℚ) * (acc.degree p1.1 : ℚ)) ^ k) *
          (p2.2 * ((acc.degree u : ℚ) * (acc.degree p2.1 : ℚ))
            ^ cfg.distrib_coeff) := by ring

/-- Witness for the amended C7. -/
theorem spec_c7_witness :
    (cfgCoreW 1).mode = SamplingMode.coreball ∧
      (cfgCoreW 2).mode = SamplingMode.coreball ∧
      (cfgCoreW 1).distrib_coeff ≤ (cfgCoreW 2).distrib_coeff ∧
      ((1, (1 : ℚ)) : NodeId × ℚ).2 = ((3, (1 : ℚ)) : NodeId × ℚ).2 ∧
      (0 : ℚ) ≤ ((3, (1 : ℚ)) : NodeId × ℚ).2 ∧
      accCoreW.degree ((3, (1 : ℚ)) : NodeId × ℚ).1 ≤
        accCoreW.degree ((1, (1 : ℚ)) : NodeId × ℚ).1 ∧
      edgeScore (cfgCoreW 1) accCoreW 0 (1, 1) *
          edgeScore (cfgCoreW 2) accCoreW 0 (3, 1) ≤
        edgeScore (cfgCoreW 2) accCoreW 0 (1, 1) *
          edgeScore (cfgCoreW 1) accCoreW 0 (3, 1) :=
  ⟨rfl, rfl, by decide, rfl, by decide, by decide,
    spec_c7_amended_bias_monotone (cfgCoreW 1) (cfgCoreW 2) accCoreW 0
      (1, 1) (3, 1) rfl rfl (by decide) rfl (by decide) (by decide)⟩

end SpikyBall
